import Mathlib

/-!
# Verification of the ha-linky gap-detection and backfill core

Shallow embedding of the gap scanner (`missingDayRanges`), the oldest-point
locator (`findOldestStatistic`), the baseline lookup (`fetchLastSum`) from
`ha.ts`, and the backfill driver (`runFill`) from `index.ts`.

Days and timestamps are modelled as integers (one unit = one day, mirroring
`startOf('day')` granularity); cumulative sums are rationals. The remote
statistics store is modelled as abstract response functions, one per query
shape the code issues:

* `zeroW d`  — the response to the scanner's SCANNING existence check at day
  `d`, whose window in the source is the degenerate `[cursor, cursor)`
  (the `end = cursor` line with the `+1 day` commented out);
* `energyDay d` / `costDay d` — the response to a one-day window
  `[d, d+1)` on the energy resp. cost series (used by the IN_HOLE check and
  by `fetchLastSum`);
* `weekQ start end` — the response to the 7-day window queries issued by
  `findOldestStatistic`.

The scanner is embedded as a fuel-indexed step function `goF` producing the
full event trace (queries issued and holes yielded, in program order); fuel
sufficiency is proved, making the total `scanEvents` well defined.
-/

/-- One stored statistics point: `{ start, sum }`. -/
structure StatPoint where
  start : Int
  sum : Rat
deriving DecidableEq, Repr

/-- The `Hole` record yielded by `missingDayRanges`: day range `[from, to)`,
baseline sums, and the timestamp of the first point of the closing day.
`lastCost` is `Option` because the source passes the possibly-`null` result of
`fetchLastSum` through unnormalized. -/
structure Hole where
  «from» : Int
  «to» : Int
  lastSum : Rat
  lastCost : Option Rat
  next : Int
deriving DecidableEq, Repr

/-- One externally supplied meter reading (`LinkyDataPoint`). -/
structure Reading where
  date : Int
  value : Rat
deriving DecidableEq, Repr

/-- Abstract remote store: one response function per query shape the code
issues. -/
structure Store where
  zeroW : Int → List StatPoint
  energyDay : Int → List StatPoint
  costDay : Int → List StatPoint
  weekQ : Int → Int → List StatPoint

/-- `points[points.length - 1].sum` when the response is non-empty, else
`null`. -/
def lastPointSum (l : List StatPoint) : Option Rat :=
  l.getLast?.map (·.sum)

/-- `fetchLastSum(day, id)`: query the one-day window `[day - 1, day)` on the
given series and return the last point's cumulative sum, or `null` if the
window is empty. -/
def fetchLastSum (dayResp : Int → List StatPoint) (day : Int) : Option Rat :=
  lastPointSum (dayResp (day - 1))

/-- The source's `!sum ? 0 : sum` normalization applied to the nullable
result of `fetchLastSum` (JS falsiness: both `null` and `0` map to `0`). -/
def normSum (o : Option Rat) : Rat :=
  match o with
  | none => 0
  | some s => if s = 0 then 0 else s

/-- `start` of the first point of a response (`points[0].start`); defaults to
`0` on an empty list (only used under a non-emptiness guard). -/
def headStart : List StatPoint → Int
  | [] => 0
  | p :: _ => p.start

/-- A remote query issued by the scanner, tagged by shape and window day:
`zeroQ d` is the SCANNING existence check at day `d`, `dayQ d` the IN_HOLE
one-day check `[d, d+1)`, `lastQ d` / `costQ d` the baseline lookups over
`[d, d+1)` on the energy / cost series. -/
inductive Query
  | zeroQ (d : Int)
  | dayQ (d : Int)
  | lastQ (d : Int)
  | costQ (d : Int)
deriving DecidableEq, Repr

/-- One observable event of a scan: a store query, or a yielded hole. -/
inductive Event
  | query (q : Query)
  | hole (h : Hole)
deriving DecidableEq, Repr

/-- Scanner control state: `scanning c` is the top of the outer `while` with
cursor `c`; `inHole h c` is the top of the inner `while (true)` body with
hole start `h`, after the cursor was already advanced to `c`. -/
inductive ScanState
  | scanning (c : Int)
  | inHole (h : Int) (c : Int)
deriving DecidableEq, Repr

/-- Cursor of a scanner state. -/
def cursorOf : ScanState → Int
  | .scanning c => c
  | .inHole _ c => c

/-- Lower bound for `from` fields of holes still to be produced. -/
def holeStartOf : ScanState → Int
  | .scanning c => c
  | .inHole h _ => h

/-- Fuel-indexed scanner: the body of `missingDayRanges` after the cursor is
anchored. Returns `none` only on fuel exhaustion. Mirrors the source:
the outer loop runs while `cursor.isBefore(today)` and treats an empty (or
missing) response to the zero-width check as the start of a hole; the inner
loop advances the cursor first, breaks only when `cursor.isAfter(today)`
(strictly), and on finding a day with data fetches both baselines, yields the
hole, and falls back to the outer loop with the cursor still at the closing
day. -/
def goF (S : Store) (today : Int) : Nat → ScanState → Option (List Event)
  | 0, _ => none
  | fuel + 1, .scanning c =>
    if c < today then
      if S.zeroW c = [] then
        (goF S today fuel (.inHole c (c + 1))).map (Event.query (.zeroQ c) :: ·)
      else
        (goF S today fuel (.scanning (c + 1))).map (Event.query (.zeroQ c) :: ·)
    else
      some []
  | fuel + 1, .inHole h c =>
    if today < c then
      some []
    else
      match S.energyDay c with
      | [] => (goF S today fuel (.inHole h (c + 1))).map (Event.query (.dayQ c) :: ·)
      | p :: _ =>
        let sum := fetchLastSum S.energyDay h
        let costs := fetchLastSum S.costDay h
        let hl : Hole := ⟨h, c, normSum sum, costs, p.start⟩
        (goF S today fuel (.scanning c)).map
          (fun evs => Event.query (.dayQ c) :: Event.query (.lastQ (h - 1)) ::
            Event.query (.costQ (h - 1)) :: Event.hole hl :: evs)

/-- Fuel that provably suffices for `goF` to complete from a given state. -/
def fuelBound (today : Int) : ScanState → Nat
  | .scanning c => 2 * (today + 1 - c).toNat + 1
  | .inHole _ c => 2 * (today + 1 - c).toNat + 2

/-- Total event trace of a scan started in SCANNING at cursor `c`. -/
def scanEvents (S : Store) (today : Int) (c : Int) : List Event :=
  (goF S today (fuelBound today (.scanning c)) (.scanning c)).getD []

/-- The holes yielded along a trace, in order. -/
def holesOf (evs : List Event) : List Hole :=
  evs.filterMap fun e =>
    match e with
    | .hole h => some h
    | _ => none

/-- The days probed by per-day existence checks (the SCANNING zero-width
check and the IN_HOLE one-day check), in order; baseline lookups are not
existence checks. -/
def examinedDays (evs : List Event) : List Int :=
  evs.filterMap fun e =>
    match e with
    | .query (.zeroQ d) => some d
    | .query (.dayQ d) => some d
    | _ => none

/-- The 7-day window of index `i` queried by `findOldestStatistic`:
`[today - (i+1)*7, today - i*7)`. -/
def weekWindow (q : Int → Int → List StatPoint) (today : Int) (i : Nat) : List StatPoint :=
  q (today - 7 * ((i : Int) + 1)) (today - 7 * (i : Int))

/-- The locator's loop from window index `i` down to `0`: return the first
point (`points[0]`) of the first non-empty window encountered. -/
def findOldestFrom (q : Int → Int → List StatPoint) (today : Int) : Nat → Option StatPoint
  | 0 => (weekWindow q today 0).head?
  | i + 1 =>
    match (weekWindow q today (i + 1)).head? with
    | some p => some p
    | none => findOldestFrom q today i

/-- `findOldestStatistic`: scan the `3 * 51` .. `0` window indices (deepest
first) and return the earliest stored point, or `null` when every window is
empty. -/
def findOldestStatistic (q : Int → Int → List StatPoint) (today : Int) : Option StatPoint :=
  findOldestFrom q today (3 * 51)

/-- `missingDayRanges` entry: with an explicit `startDay` the scan is
anchored there; otherwise the oldest stored point anchors it one day later,
and a completely empty series ends the generator immediately, before any
per-day query. Returns the full event trace of the scan. -/
def missingDayRanges (S : Store) (today : Int) (startDay : Option Int) : List Event :=
  match startDay with
  | some d => scanEvents S today d
  | none =>
    match findOldestStatistic S.weekQ today with
    | none => []
    | some p => scanEvents S today (p.start + 1)

/-! ## Backfill driver (`runFill` in `index.ts`)

`formatAsStatistics` and `computeCosts` live in excluded collaborator modules
(`format.ts`, `cost.ts`); the driver only pipes data through them, so they are
universally quantified parameters (`fmt`, `cc`), as is the cost-configuration
payload type `κ`. The driver's observable behavior is its list of store
mutations. -/

/-- A store mutation issued by the driver: a bulk import
(`recorder/import_statistics`) or a cumulative-sum adjustment
(`recorder/adjust_sum_statistics`), each tagged with the cost-vs-energy
facet. -/
inductive Effect
  | save (isCost : Bool) (stats : List StatPoint)
  | adjust (isCost : Bool) (date : Int) (value : Rat)
deriving DecidableEq, Repr

/-- Last written cumulative value of a stats batch (`stats[len-1].sum`);
defaults to `0`, only used under non-emptiness guards. -/
def listLastSum (l : List StatPoint) : Rat :=
  (l.getLast?.map (·.sum)).getD 0

/-- The readings selected for a hole: `from <= date < to`. -/
def holeReadings (readings : List Reading) (hole : Hole) : List Reading :=
  readings.filter fun pt => hole.«from» ≤ pt.date ∧ pt.date < hole.«to»

/-- The body of `runFill`'s `for await` loop for one hole. `costsCfg` is
`config.costs`; the source guard `config.costs && hole.lastCost` is JS
truthiness, so a present config with a non-null, non-zero `lastCost` is
required for the cost branch, and an empty `costStats` ends the hole's
processing (`continue`). -/
def processHole {κ : Type} (costsCfg : Option κ)
    (cc : List StatPoint → κ → Rat → List StatPoint)
    (fmt : List Reading → Rat → List StatPoint)
    (readings : List Reading) (hole : Hole) : List Effect :=
  let raw := holeReadings readings hole
  if raw.isEmpty then []
  else
    let stats := fmt raw hole.lastSum
    Effect.save false stats ::
      ((if stats.isEmpty then []
        else [Effect.adjust false hole.next (listLastSum stats - hole.lastSum)]) ++
        (match costsCfg, hole.lastCost with
          | some cfg, some lc =>
            if lc = 0 then []
            else
              let cs := cc stats cfg lc
              if cs.isEmpty then []
              else [Effect.save true cs, Effect.adjust true hole.next (listLastSum cs - lc)]
          | _, _ => []))

/-- `runFill`: process the holes in order, one independent unit of work
each. -/
def runFill {κ : Type} (costsCfg : Option κ)
    (cc : List StatPoint → κ → Rat → List StatPoint)
    (fmt : List Reading → Rat → List StatPoint)
    (readings : List Reading) (holes : List Hole) : List Effect :=
  (holes.map (processHole costsCfg cc fmt readings)).flatten

/-- Energy-series adjustment calls. -/
def isEnergyAdjust : Effect → Bool
  | .adjust false _ _ => true
  | _ => false

/-- Cost-series mutations (imports and adjustments with `isCost`). -/
def isCostEffect : Effect → Bool
  | .save true _ => true
  | .adjust true _ _ => true
  | _ => false

/-- Energy-series mutations. -/
def isEnergyEffect : Effect → Bool
  | .save false _ => true
  | .adjust false _ _ => true
  | _ => false

/-! ## Scanner unfolding and fuel lemmas -/

theorem goF_succ_scanning (S : Store) (today : Int) (fuel : Nat) (c : Int) :
    goF S today (fuel + 1) (.scanning c) =
      if c < today then
        if S.zeroW c = [] then
          (goF S today fuel (.inHole c (c + 1))).map (Event.query (.zeroQ c) :: ·)
        else
          (goF S today fuel (.scanning (c + 1))).map (Event.query (.zeroQ c) :: ·)
      else
        some [] := rfl

theorem goF_succ_inHole (S : Store) (today : Int) (fuel : Nat) (h c : Int) :
    goF S today (fuel + 1) (.inHole h c) =
      if today < c then
        some []
      else
        match S.energyDay c with
        | [] => (goF S today fuel (.inHole h (c + 1))).map (Event.query (.dayQ c) :: ·)
        | p :: _ =>
          (goF S today fuel (.scanning c)).map
            (fun evs => Event.query (.dayQ c) :: Event.query (.lastQ (h - 1)) ::
              Event.query (.costQ (h - 1)) ::
              Event.hole ⟨h, c, normSum (fetchLastSum S.energyDay h),
                fetchLastSum S.costDay h, p.start⟩ :: evs) := rfl

theorem goF_mono (S : Store) (today : Int) :
    ∀ (fuel : Nat) (st : ScanState) (evs : List Event),
      goF S today fuel st = some evs → goF S today (fuel + 1) st = some evs := by
  intro fuel
  induction fuel with
  | zero => intro st evs h; simp [goF] at h
  | succ fuel ih =>
    intro st evs h
    match st with
    | .scanning c =>
      rw [goF_succ_scanning] at h ⊢
      by_cases hc : c < today
      · by_cases hz : S.zeroW c = []
        · rw [if_pos hc, if_pos hz] at h ⊢
          obtain ⟨evs', h1, h2⟩ := Option.map_eq_some'.mp h
          rw [ih _ _ h1]
          simpa using h2
        · rw [if_pos hc, if_neg hz] at h ⊢
          obtain ⟨evs', h1, h2⟩ := Option.map_eq_some'.mp h
          rw [ih _ _ h1]
          simpa using h2
      · rwa [if_neg hc] at h ⊢
    | .inHole hs c =>
      rw [goF_succ_inHole] at h ⊢
      by_cases hc : today < c
      · rwa [if_pos hc] at h ⊢
      · rw [if_neg hc] at h ⊢
        cases hE : S.energyDay c with
        | nil =>
          rw [hE] at h
          obtain ⟨evs', h1, h2⟩ := Option.map_eq_some'.mp h
          rw [ih _ _ h1]
          simpa using h2
        | cons p ps =>
          rw [hE] at h
          obtain ⟨evs', h1, h2⟩ := Option.map_eq_some'.mp h
          rw [ih _ _ h1]
          simpa using h2

theorem goF_le (S : Store) (today : Int) {fuel fuel' : Nat} (hle : fuel ≤ fuel')
    {st : ScanState} {evs : List Event} (h : goF S today fuel st = some evs) :
    goF S today fuel' st = some evs := by
  induction fuel', hle using Nat.le_induction with
  | base => exact h
  | succ n _ ih => exact goF_mono S today n st evs ih

theorem goF_isSome (S : Store) (today : Int) :
    ∀ (fuel : Nat) (st : ScanState), fuelBound today st ≤ fuel →
      (goF S today fuel st).isSome := by
  intro fuel
  induction fuel with
  | zero => intro st hb; exfalso; cases st <;> simp [fuelBound] at hb
  | succ fuel ih =>
    intro st hb
    match st with
    | .scanning c =>
      have hb' : 2 * (today + 1 - c).toNat + 1 ≤ fuel + 1 := by
        simpa [fuelBound] using hb
      rw [goF_succ_scanning]
      by_cases hc : c < today
      · rw [if_pos hc]
        by_cases hz : S.zeroW c = []
        · rw [if_pos hz, Option.isSome_map']
          exact ih _ (by simp [fuelBound]; omega)
        · rw [if_neg hz, Option.isSome_map']
          exact ih _ (by simp [fuelBound]; omega)
      · rw [if_neg hc]; rfl
    | .inHole hs c =>
      have hb' : 2 * (today + 1 - c).toNat + 2 ≤ fuel + 1 := by
        simpa [fuelBound] using hb
      rw [goF_succ_inHole]
      by_cases hc : today < c
      · rw [if_pos hc]; rfl
      · rw [if_neg hc]
        cases hE : S.energyDay c with
        | nil =>
          rw [Option.isSome_map']
          exact ih _ (by simp [fuelBound]; omega)
        | cons p ps =>
          rw [Option.isSome_map']
          exact ih _ (by simp [fuelBound]; omega)

theorem goF_scanEvents (S : Store) (today : Int) (c : Int) {fuel : Nat}
    (hfuel : fuelBound today (.scanning c) ≤ fuel) :
    goF S today fuel (.scanning c) = some (scanEvents S today c) := by
  obtain ⟨evs, he⟩ := Option.isSome_iff_exists.mp
    (goF_isSome S today (fuelBound today (.scanning c)) (.scanning c) le_rfl)
  have : scanEvents S today c = evs := by rw [scanEvents, he]; rfl
  rw [this]
  exact goF_le S today hfuel he

/-! ## Trace decomposition helpers -/

theorem holesOf_cons_query (q : Query) (evs : List Event) :
    holesOf (Event.query q :: evs) = holesOf evs := rfl

theorem holesOf_cons_hole (h : Hole) (evs : List Event) :
    holesOf (Event.hole h :: evs) = h :: holesOf evs := rfl

theorem examinedDays_cons_zero (d : Int) (evs : List Event) :
    examinedDays (Event.query (Query.zeroQ d) :: evs) = d :: examinedDays evs := rfl

theorem examinedDays_cons_day (d : Int) (evs : List Event) :
    examinedDays (Event.query (Query.dayQ d) :: evs) = d :: examinedDays evs := rfl

theorem examinedDays_cons_last (d : Int) (evs : List Event) :
    examinedDays (Event.query (Query.lastQ d) :: evs) = examinedDays evs := rfl

theorem examinedDays_cons_cost (d : Int) (evs : List Event) :
    examinedDays (Event.query (Query.costQ d) :: evs) = examinedDays evs := rfl

theorem examinedDays_cons_hole (h : Hole) (evs : List Event) :
    examinedDays (Event.hole h :: evs) = examinedDays evs := rfl

/-- After every yielded hole, the remaining trace starts with the SCANNING
existence check at the hole's own closing day `h.to` when that day is still
before today, and is empty otherwise. This is exactly the source behavior of
`break`ing out of the inner loop with the cursor left at the closing day. -/
def holeFollowed (today : Int) (evs : List Event) : Prop :=
  ∀ xs h rest, evs = xs ++ Event.hole h :: rest →
    (h.«to» < today → rest.head? = some (Event.query (Query.zeroQ h.«to»))) ∧
    (today ≤ h.«to» → rest = [])

theorem holeFollowed_nil (today : Int) : holeFollowed today [] := by
  intro xs h rest heq
  exact absurd heq (by simp)

theorem holeFollowed_cons_query (today : Int) (q : Query) {evs : List Event}
    (hf : holeFollowed today evs) : holeFollowed today (Event.query q :: evs) := by
  intro xs h rest heq
  match xs with
  | [] => simp at heq
  | x :: xs' =>
    simp only [List.cons_append, List.cons.injEq] at heq
    exact hf xs' h rest heq.2

theorem holeFollowed_cons_hole (today : Int) {hl : Hole} {rest : List Event}
    (h1 : hl.«to» < today → rest.head? = some (Event.query (Query.zeroQ hl.«to»)))
    (h2 : today ≤ hl.«to» → rest = [])
    (hf : holeFollowed today rest) :
    holeFollowed today (Event.hole hl :: rest) := by
  intro xs h r heq
  match xs with
  | [] =>
    simp only [List.nil_append, List.cons.injEq, Event.hole.injEq] at heq
    obtain ⟨rfl, rfl⟩ := heq
    exact ⟨h1, h2⟩
  | x :: xs' =>
    simp only [List.cons_append, List.cons.injEq] at heq
    exact hf xs' h r heq.2

/-! ## The scan invariant -/

/-- What a yielded hole satisfies, relative to a lower bound `lo` on its
start day: proper non-empty day range ending no later than today, baselines
read from the one-day window before `from` (energy normalized by `!sum ? 0 :
sum`, cost passed through nullable), a closing day that has data, and `next`
equal to the first point of the closing day. -/
def holeSpec (S : Store) (today lo : Int) (h : Hole) : Prop :=
  lo ≤ h.«from» ∧ h.«from» < h.«to» ∧ h.«to» ≤ today ∧
  h.lastSum = normSum (lastPointSum (S.energyDay (h.«from» - 1))) ∧
  h.lastCost = lastPointSum (S.costDay (h.«from» - 1)) ∧
  S.energyDay h.«to» ≠ [] ∧ h.next = headStart (S.energyDay h.«to»)

theorem holeSpec_mono {S : Store} {today lo lo' : Int} {h : Hole} (hle : lo' ≤ lo) :
    holeSpec S today lo h → holeSpec S today lo' h :=
  fun ⟨a, b, c, d, e, f, g⟩ => ⟨le_trans hle a, b, c, d, e, f, g⟩

/-- Well-formedness of a scanner state: inside a hole the cursor has moved
strictly past the hole start. Preserved by every transition and trivially
true at scan entry. -/
def stOK : ScanState → Prop
  | .scanning _ => True
  | .inHole h c => h < c

/-- Master invariant of the scanner, proved along the fuel recursion: every
yielded hole satisfies `holeSpec` with the state's hole-start lower bound;
holes are pairwise ordered and disjoint; every day probed by an existence
check lies between the state's cursor and today; the probed days are
non-decreasing; and every yielded hole is followed by the SCANNING re-check
of its own closing day (or ends the trace at the boundary). -/
theorem goF_master (S : Store) (today : Int) :
    ∀ (fuel : Nat) (st : ScanState) (evs : List Event), stOK st →
      goF S today fuel st = some evs →
      (∀ h ∈ holesOf evs, holeSpec S today (holeStartOf st) h) ∧
      (holesOf evs).Pairwise (fun a b => a.«to» ≤ b.«from») ∧
      (∀ d ∈ examinedDays evs, cursorOf st ≤ d ∧ d ≤ today) ∧
      (examinedDays evs).Chain' (· ≤ ·) ∧
      holeFollowed today evs := by
  intro fuel
  induction fuel with
  | zero => intro st evs _ h; simp [goF] at h
  | succ fuel ih =>
    intro st evs hok h
    match st with
    | .scanning c =>
      rw [goF_succ_scanning] at h
      by_cases hc : c < today
      · rw [if_pos hc] at h
        by_cases hz : S.zeroW c = []
        · rw [if_pos hz] at h
          obtain ⟨evs', h1, h2⟩ := Option.map_eq_some'.mp h
          subst h2
          obtain ⟨A, B, C, D, E⟩ := ih (.inHole c (c + 1)) evs' (by simp [stOK]) h1
          refine ⟨?_, ?_, ?_, ?_, ?_⟩
          · rw [holesOf_cons_query]
            exact fun h hm => A h hm
          · rw [holesOf_cons_query]; exact B
          · rw [examinedDays_cons_zero]
            intro d hd
            rcases List.mem_cons.mp hd with rfl | hd
            · exact ⟨le_refl _, le_of_lt hc⟩
            · obtain ⟨hd1, hd2⟩ := C d hd
              simp only [cursorOf] at hd1 ⊢
              exact ⟨by omega, hd2⟩
          · rw [examinedDays_cons_zero]
            rw [List.chain'_cons']
            refine ⟨fun y hy => ?_, D⟩
            have := C y (List.mem_of_mem_head? hy)
            simp only [cursorOf] at this
            omega
          · exact holeFollowed_cons_query today _ E
        · rw [if_neg hz] at h
          obtain ⟨evs', h1, h2⟩ := Option.map_eq_some'.mp h
          subst h2
          obtain ⟨A, B, C, D, E⟩ := ih (.scanning (c + 1)) evs' trivial h1
          refine ⟨?_, ?_, ?_, ?_, ?_⟩
          · rw [holesOf_cons_query]
            exact fun h hm => holeSpec_mono (by simp only [holeStartOf]; omega) (A h hm)
          · rw [holesOf_cons_query]; exact B
          · rw [examinedDays_cons_zero]
            intro d hd
            rcases List.mem_cons.mp hd with rfl | hd
            · exact ⟨le_refl _, le_of_lt hc⟩
            · obtain ⟨hd1, hd2⟩ := C d hd
              simp only [cursorOf] at hd1 ⊢
              exact ⟨by omega, hd2⟩
          · rw [examinedDays_cons_zero, List.chain'_cons']
            refine ⟨fun y hy => ?_, D⟩
            have := C y (List.mem_of_mem_head? hy)
            simp only [cursorOf] at this
            omega
          · exact holeFollowed_cons_query today _ E
      · rw [if_neg hc] at h
        obtain rfl : ([] : List Event) = evs := by simpa using h
        exact ⟨by simp [holesOf], by simp [holesOf], by simp [examinedDays],
          by simp [examinedDays], holeFollowed_nil today⟩
    | .inHole hs c =>
      rw [goF_succ_inHole] at h
      by_cases hc : today < c
      · rw [if_pos hc] at h
        obtain rfl : ([] : List Event) = evs := by simpa using h
        exact ⟨by simp [holesOf], by simp [holesOf], by simp [examinedDays],
          by simp [examinedDays], holeFollowed_nil today⟩
      · rw [if_neg hc] at h
        cases hE : S.energyDay c with
        | nil =>
          rw [hE] at h
          obtain ⟨evs', h1, h2⟩ := Option.map_eq_some'.mp h
          subst h2
          obtain ⟨A, B, C, D, E⟩ := ih (.inHole hs (c + 1)) evs'
            (by simp only [stOK] at hok ⊢; omega) h1
          refine ⟨?_, ?_, ?_, ?_, ?_⟩
          · rw [holesOf_cons_query]
            exact fun h hm => A h hm
          · rw [holesOf_cons_query]; exact B
          · rw [examinedDays_cons_day]
            intro d hd
            rcases List.mem_cons.mp hd with rfl | hd
            · exact ⟨le_refl _, by omega⟩
            · obtain ⟨hd1, hd2⟩ := C d hd
              simp only [cursorOf] at hd1 ⊢
              exact ⟨by omega, hd2⟩
          · rw [examinedDays_cons_day, List.chain'_cons']
            refine ⟨fun y hy => ?_, D⟩
            have := C y (List.mem_of_mem_head? hy)
            simp only [cursorOf] at this
            omega
          · exact holeFollowed_cons_query today _ E
        | cons p ps =>
          rw [hE] at h
          obtain ⟨rest, h1, h2⟩ := Option.map_eq_some'.mp h
          subst h2
          obtain ⟨A, B, C, D, E⟩ := ih (.scanning c) rest trivial h1
          simp only [stOK] at hok
          have hrest_head : c < today → rest.head? = some (Event.query (Query.zeroQ c)) := by
            intro hlt
            match fuel, h1 with
            | 0, h1 => simp [goF] at h1
            | n + 1, h1 =>
              rw [goF_succ_scanning, if_pos hlt] at h1
              by_cases hz : S.zeroW c = []
              · rw [if_pos hz] at h1
                obtain ⟨e', _, he⟩ := Option.map_eq_some'.mp h1
                rw [← he]; rfl
              · rw [if_neg hz] at h1
                obtain ⟨e', _, he⟩ := Option.map_eq_some'.mp h1
                rw [← he]; rfl
          have hrest_nil : today ≤ c → rest = [] := by
            intro hle
            match fuel, h1 with
            | 0, h1 => simp [goF] at h1
            | n + 1, h1 =>
              rw [goF_succ_scanning, if_neg (by omega)] at h1
              simpa using h1.symm
          set hl : Hole := ⟨hs, c, normSum (fetchLastSum S.energyDay hs),
            fetchLastSum S.costDay hs, p.start⟩ with hhl
          have hlSpec : holeSpec S today hs hl := by
            refine ⟨le_refl _, hok, (show c ≤ today by omega), ?_, ?_, ?_, ?_⟩
            · rfl
            · rfl
            · show S.energyDay c ≠ []
              simp [hE]
            · show p.start = headStart (S.energyDay c)
              rw [hE]; rfl
          refine ⟨?_, ?_, ?_, ?_, ?_⟩
          · simp only [holesOf_cons_query, holesOf_cons_hole]
            intro h hm
            rcases List.mem_cons.mp hm with rfl | hm
            · exact hlSpec
            · exact holeSpec_mono (by simp [holeStartOf]; omega) (A h hm)
          · simp only [holesOf_cons_query, holesOf_cons_hole]
            rw [List.pairwise_cons]
            refine ⟨fun h' hm => ?_, B⟩
            have := (A h' hm).1
            simp only [holeStartOf] at this
            exact this
          · simp only [examinedDays_cons_day, examinedDays_cons_last,
              examinedDays_cons_cost, examinedDays_cons_hole]
            intro d hd
            rcases List.mem_cons.mp hd with rfl | hd
            · exact ⟨le_refl _, by omega⟩
            · obtain ⟨hd1, hd2⟩ := C d hd
              simp only [cursorOf] at hd1 ⊢
              exact ⟨hd1, hd2⟩
          · simp only [examinedDays_cons_day, examinedDays_cons_last,
              examinedDays_cons_cost, examinedDays_cons_hole]
            rw [List.chain'_cons']
            refine ⟨fun y hy => ?_, D⟩
            have := C y (List.mem_of_mem_head? hy)
            simp only [cursorOf] at this
            omega
          · exact holeFollowed_cons_query today _ (holeFollowed_cons_query today _
              (holeFollowed_cons_query today _
                (holeFollowed_cons_hole today hrest_head hrest_nil E)))

/-! ## Packaging the invariant at the public entry points -/

theorem scanEvents_master (S : Store) (today c : Int) :
    (∀ h ∈ holesOf (scanEvents S today c), holeSpec S today c h) ∧
    (holesOf (scanEvents S today c)).Pairwise (fun a b => a.«to» ≤ b.«from») ∧
    (∀ d ∈ examinedDays (scanEvents S today c), c ≤ d ∧ d ≤ today) ∧
    (examinedDays (scanEvents S today c)).Chain' (· ≤ ·) ∧
    holeFollowed today (scanEvents S today c) := by
  obtain ⟨evs, he⟩ := Option.isSome_iff_exists.mp
    (goF_isSome S today (fuelBound today (.scanning c)) (.scanning c) le_rfl)
  have hs : scanEvents S today c = evs := by rw [scanEvents, he]; rfl
  rw [hs]
  have := goF_master S today (fuelBound today (.scanning c)) (.scanning c) evs
    (by simp [stOK]) he
  simpa [holeStartOf, cursorOf] using this

theorem missingDayRanges_shape (S : Store) (today : Int) (sd : Option Int) :
    missingDayRanges S today sd = [] ∨
      ∃ c, missingDayRanges S today sd = scanEvents S today c := by
  unfold missingDayRanges
  cases sd with
  | some d => exact Or.inr ⟨d, rfl⟩
  | none =>
    cases findOldestStatistic S.weekQ today with
    | none => exact Or.inl rfl
    | some p => exact Or.inr ⟨p.start + 1, rfl⟩

theorem missingDayRanges_master (S : Store) (today : Int) (sd : Option Int) :
    (∀ h ∈ holesOf (missingDayRanges S today sd), holeSpec S today h.«from» h) ∧
    (holesOf (missingDayRanges S today sd)).Pairwise (fun a b => a.«to» ≤ b.«from») ∧
    (∀ d ∈ examinedDays (missingDayRanges S today sd), d ≤ today) ∧
    (examinedDays (missingDayRanges S today sd)).Chain' (· ≤ ·) ∧
    holeFollowed today (missingDayRanges S today sd) := by
  rcases missingDayRanges_shape S today sd with h | ⟨c, h⟩ <;> rw [h]
  · exact ⟨by simp [holesOf], by simp [holesOf], by simp [examinedDays],
      by simp [examinedDays], holeFollowed_nil today⟩
  · obtain ⟨A, B, C, D, E⟩ := scanEvents_master S today c
    exact ⟨fun h hm => ⟨le_refl _, (A h hm).2⟩, B, fun d hd => (C d hd).2, D, E⟩

/-! ## Concrete stores used by witnesses and counterexamples -/

/-- A point on day 2 with timestamp `20` and cumulative sum `5`. -/
def ptA : StatPoint := ⟨20, 5⟩

/-- A store whose energy series has data on day 2 only; every other response
(including the zero-width SCANNING check and the whole cost series) is
empty. -/
def sampleStore : Store :=
  { zeroW := fun _ => []
    energyDay := fun d => if d = 2 then [ptA] else []
    costDay := fun _ => []
    weekQ := fun _ _ => [] }

/-- The store with every response empty. -/
def emptyStore : Store :=
  ⟨fun _ => [], fun _ => [], fun _ => [], fun _ _ => []⟩

/-! ## Claim C2 -/

/-- C2: in any one scan of the gap scanner, the yielded holes are pairwise
disjoint and in increasing time order: any earlier hole's `to` is at most any
later hole's `from` (in particular for consecutive holes). -/
theorem missingDayRanges_holes_pairwise (S : Store) (today : Int) (sd : Option Int) :
    (holesOf (missingDayRanges S today sd)).Pairwise (fun a b => a.«to» ≤ b.«from») :=
  (missingDayRanges_master S today sd).2.1

/-! ## Claim C3 -/

/-- C3 (amended): every emitted hole's `lastSum` equals the cumulative sum
recorded by the store in the one-day window immediately before `hole.from`,
normalized to `0` when no record exists (`!sum ? 0 : sum`); `lastCost`
equals the recorded cost sum in that window but is passed through
unnormalized, so it is null (`none`) — not `0` — when no cost record
exists. -/
theorem missingDayRanges_baselines (S : Store) (today : Int) (sd : Option Int) :
    ∀ h ∈ holesOf (missingDayRanges S today sd),
      h.lastSum = normSum (lastPointSum (S.energyDay (h.«from» - 1))) ∧
      h.lastCost = lastPointSum (S.costDay (h.«from» - 1)) := by
  intro h hm
  obtain ⟨_, _, _, h4, h5, _, _⟩ := (missingDayRanges_master S today sd).1 h hm
  exact ⟨h4, h5⟩

theorem missingDayRanges_baselines_witness :
    (0 : Rat) = normSum (lastPointSum (sampleStore.energyDay ((0 : Int) - 1))) ∧
    (none : Option Rat) = lastPointSum (sampleStore.costDay ((0 : Int) - 1)) :=
  missingDayRanges_baselines sampleStore 2 (some 0) ⟨0, 2, 0, none, 20⟩ (by decide)

/-- C3 counterexample: a scan over `sampleStore` (no cost data at all) emits
a hole whose `lastCost` is null, refuting "neither field is ever null". -/
theorem missingDayRanges_lastCost_null :
    (holesOf (missingDayRanges sampleStore 2 (some 0))).map Hole.lastCost = [none] := by
  decide

/-! ## Claim C4 -/

/-- C4 (amended): the IN_HOLE loop stops only once the cursor is strictly
after today, so a hole whose confirmed closing day is exactly today can
still be emitted; every emitted hole has a proper range and a closing day
with data satisfying `to ≤ today` (inclusive), and no existence check ever
probes a day after today. -/
theorem missingDayRanges_close_bounds (S : Store) (today : Int) (sd : Option Int) :
    (∀ h ∈ holesOf (missingDayRanges S today sd),
      h.«from» < h.«to» ∧ h.«to» ≤ today ∧ S.energyDay h.«to» ≠ []) ∧
    (∀ d ∈ examinedDays (missingDayRanges S today sd), d ≤ today) := by
  refine ⟨fun h hm => ?_, (missingDayRanges_master S today sd).2.2.1⟩
  obtain ⟨_, h2, h3, _, _, h6, _⟩ := (missingDayRanges_master S today sd).1 h hm
  exact ⟨h2, h3, h6⟩

theorem missingDayRanges_close_bounds_witness :
    ((0 : Int) < 2 ∧ (2 : Int) ≤ 2 ∧ sampleStore.energyDay 2 ≠ []) ∧
    ((1 : Int) ≤ 2) :=
  ⟨(missingDayRanges_close_bounds sampleStore 2 (some 0)).1 ⟨0, 2, 0, none, 20⟩ (by decide),
   (missingDayRanges_close_bounds sampleStore 2 (some 0)).2 1 (by decide)⟩

/-- C4 counterexample: with today = 2, a scan of `sampleStore` emits the
hole `[0, 2)` whose `to` equals today — the in-progress hole at the scan
boundary is emitted when the day equal to today has data, refuting "as soon
as the cursor reaches or passes today the scan stops and the in-progress
hole is never emitted". -/
theorem missingDayRanges_hole_at_today :
    (holesOf (missingDayRanges sampleStore 2 (some 0))).map Hole.«to» = [2] := by
  decide

/-! ## Claim C5 -/

/-- C5 (amended): when a hole closes, `to` equals the closing day (whose
one-day window query returned data) and `next` equals the timestamp of the
first point found in the closing day; but the scanner returns to SCANNING
with the cursor at the closing day itself, so whenever the closing day is
still before today it is examined again by the very next zero-width
existence check instead of being skipped. -/
theorem missingDayRanges_close_shape (S : Store) (today : Int) (sd : Option Int) :
    (∀ h ∈ holesOf (missingDayRanges S today sd),
      S.energyDay h.«to» ≠ [] ∧ h.next = headStart (S.energyDay h.«to»)) ∧
    holeFollowed today (missingDayRanges S today sd) := by
  refine ⟨fun h hm => ?_, (missingDayRanges_master S today sd).2.2.2.2⟩
  obtain ⟨_, _, _, _, _, h6, h7⟩ := (missingDayRanges_master S today sd).1 h hm
  exact ⟨h6, h7⟩

theorem missingDayRanges_close_shape_witness :
    (sampleStore.energyDay 2 ≠ [] ∧ (20 : Int) = headStart (sampleStore.energyDay 2)) ∧
    ([Event.query (Query.zeroQ 2), Event.query (Query.dayQ 3),
        Event.query (Query.dayQ 4)] : List Event).head? =
      some (Event.query (Query.zeroQ 2)) :=
  ⟨(missingDayRanges_close_shape sampleStore 4 (some 0)).1 ⟨0, 2, 0, none, 20⟩ (by decide),
   ((missingDayRanges_close_shape sampleStore 4 (some 0)).2
     [Event.query (Query.zeroQ 0), Event.query (Query.dayQ 1), Event.query (Query.dayQ 2),
      Event.query (Query.lastQ (-1)), Event.query (Query.costQ (-1))]
     ⟨0, 2, 0, none, 20⟩
     [Event.query (Query.zeroQ 2), Event.query (Query.dayQ 3), Event.query (Query.dayQ 4)]
     (by decide)).1 (by decide)⟩

/-- C5 counterexample: after the hole `[0, 2)` closes on day 2, the very
next event is the SCANNING existence check at day 2 — the closing day is
queried again (the cursor stays at the closing day, not the day after it),
refuting "the closing day is not queried again by the scanner". -/
theorem missingDayRanges_closing_day_requeried :
    missingDayRanges sampleStore 4 (some 0) =
      [Event.query (Query.zeroQ 0), Event.query (Query.dayQ 1), Event.query (Query.dayQ 2),
       Event.query (Query.lastQ (-1)), Event.query (Query.costQ (-1)),
       Event.hole ⟨0, 2, 0, none, 20⟩,
       Event.query (Query.zeroQ 2), Event.query (Query.dayQ 3),
       Event.query (Query.dayQ 4)] := by
  decide

/-! ## Claim C9 -/

/-- C9 (amended): for every store and anchor, the scan terminates — any fuel
at least `fuelBound` yields the same completed finite trace; the days probed
by existence checks are monotonically non-decreasing and lie between the
anchor and today inclusive (a trailing hole may still probe the day equal to
today: the scan stops only once the cursor strictly exceeds today). -/
theorem scan_terminating_monotone (S : Store) (today c : Int) (fuel : Nat)
    (hfuel : fuelBound today (.scanning c) ≤ fuel) :
    goF S today fuel (.scanning c) = some (scanEvents S today c) ∧
    (∀ d ∈ examinedDays (scanEvents S today c), c ≤ d ∧ d ≤ today) ∧
    (examinedDays (scanEvents S today c)).Chain' (· ≤ ·) :=
  ⟨goF_scanEvents S today c hfuel, (scanEvents_master S today c).2.2.1,
   (scanEvents_master S today c).2.2.2.1⟩

theorem scan_terminating_monotone_witness :
    goF emptyStore 1 5 (.scanning 0) = some (scanEvents emptyStore 1 0) ∧
    (examinedDays (scanEvents emptyStore 1 0)).Chain' (· ≤ ·) :=
  ⟨(scan_terminating_monotone emptyStore 1 0 5 (by decide)).1,
   (scan_terminating_monotone emptyStore 1 0 5 (by decide)).2.2⟩

/-- C9 counterexample: with an all-empty store and today = 1, the scan does
not stop when the cursor reaches today: while extending the hole started at
day 0 it issues the one-day existence check at day 1 = today itself (the
inner loop breaks only when the cursor is strictly after today), refuting
"the scan terminates once the cursor reaches today (exclusive)". -/
theorem scan_examines_today :
    missingDayRanges emptyStore 1 (some 0) =
      [Event.query (Query.zeroQ 0), Event.query (Query.dayQ 1)] := by
  decide

/-! ## Claim C10 -/

/-- C10: invoked without an explicit start day over a series whose locator
finds no stored point, the generator ends immediately: the trace is empty —
no holes and no per-day existence queries at all. -/
theorem missingDayRanges_empty_series (S : Store) (today : Int)
    (hnone : findOldestStatistic S.weekQ today = none) :
    missingDayRanges S today none = [] ∧
    holesOf (missingDayRanges S today none) = [] ∧
    examinedDays (missingDayRanges S today none) = [] := by
  have h : missingDayRanges S today none = [] := by
    unfold missingDayRanges
    rw [hnone]
  exact ⟨h, by rw [h]; rfl, by rw [h]; rfl⟩

theorem missingDayRanges_empty_series_witness :
    missingDayRanges emptyStore 0 none = [] ∧
    holesOf (missingDayRanges emptyStore 0 none) = [] ∧
    examinedDays (missingDayRanges emptyStore 0 none) = [] :=
  missingDayRanges_empty_series emptyStore 0 (by decide)

/-! ## Claim C8: the oldest-point locator -/

theorem findOldestFrom_congr (w w' : Int → Int → List StatPoint) (today : Int) :
    ∀ n, (∀ i ≤ n, weekWindow w today i = weekWindow w' today i) →
      findOldestFrom w today n = findOldestFrom w' today n := by
  intro n
  induction n with
  | zero =>
    intro h
    unfold findOldestFrom
    rw [h 0 le_rfl]
  | succ n ih =>
    intro h
    unfold findOldestFrom
    rw [h (n + 1) le_rfl]
    cases (weekWindow w' today (n + 1)).head? with
    | some p => rfl
    | none => exact ih fun i hi => h i (le_trans hi (Nat.le_succ n))

theorem findOldestFrom_none (w : Int → Int → List StatPoint) (today : Int) :
    ∀ n, (∀ i ≤ n, weekWindow w today i = []) →
      findOldestFrom w today n = none := by
  intro n
  induction n with
  | zero =>
    intro h
    unfold findOldestFrom
    rw [h 0 le_rfl]
    rfl
  | succ n ih =>
    intro h
    unfold findOldestFrom
    rw [h (n + 1) le_rfl]
    exact ih fun i hi => h i (le_trans hi (Nat.le_succ n))

theorem findOldestFrom_find (w : Int → Int → List StatPoint) (today : Int) :
    ∀ n j, j ≤ n → weekWindow w today j ≠ [] →
      (∀ i, j < i → i ≤ n → weekWindow w today i = []) →
      findOldestFrom w today n = (weekWindow w today j).head? := by
  intro n
  induction n with
  | zero =>
    intro j hj _ _
    obtain rfl : j = 0 := Nat.le_zero.mp hj
    rfl
  | succ n ih =>
    intro j hj hne hab
    by_cases hj' : j = n + 1
    · subst hj'
      unfold findOldestFrom
      cases hh : (weekWindow w today (n + 1)).head? with
      | some p => simp [hh]
      | none => exact absurd (List.head?_eq_none_iff.mp hh) hne
    · have hj2 : j ≤ n := by omega
      unfold findOldestFrom
      rw [hab (n + 1) (by omega) le_rfl]
      exact ih j hj2 hne fun i h1 h2 => hab i h1 (by omega)

/-- C8 (amended): the locator queries the fixed 7-day windows of indices `0`
to `3 * 51 = 153` — 154 windows, a lookback horizon of 154 (not 153) weeks,
the deepest window being `[today - 1078d, today - 1071d)`. Its result depends
only on those windows; if all of them are empty it reports no data; otherwise
it returns the first point of the deepest (oldest) non-empty window. -/
theorem findOldestStatistic_spec (w w' : Int → Int → List StatPoint) (today : Int) (j : Nat) :
    ((∀ i ≤ 3 * 51, weekWindow w today i = weekWindow w' today i) →
      findOldestStatistic w today = findOldestStatistic w' today) ∧
    ((∀ i ≤ 3 * 51, weekWindow w today i = []) → findOldestStatistic w today = none) ∧
    (j ≤ 3 * 51 → weekWindow w today j ≠ [] →
      (∀ i, j < i → i ≤ 3 * 51 → weekWindow w today i = []) →
      findOldestStatistic w today = (weekWindow w today j).head?) :=
  ⟨fun h => findOldestFrom_congr w w' today (3 * 51) h,
   fun h => findOldestFrom_none w today (3 * 51) h,
   fun h1 h2 h3 => findOldestFrom_find w today (3 * 51) j h1 h2 h3⟩

/-- A series whose only stored point lies in window index 2
(`[today - 21d, today - 14d)` for `today = 0`). -/
def wOld : Int → Int → List StatPoint := fun s _ => if s = -21 then [⟨-21, 7⟩] else []

theorem findOldestStatistic_spec_witness :
    findOldestStatistic wOld 0 = some ⟨-21, 7⟩ :=
  (findOldestStatistic_spec wOld wOld 0 2).2.2 (by decide) (by decide)
    (fun i h1 _ => by
      simp only [weekWindow, wOld]
      rw [if_neg (by omega)])

/-- A series whose only stored point lies 1078 days (154 weeks) before
today, i.e. in the locator's deepest window, index 153. -/
def wDeep : Int → Int → List StatPoint := fun s _ => if s = -1078 then [⟨-1078, 1⟩] else []

/-- C8 counterexample: every 7-day window inside a 153-week horizon (window
indices 0..152, covering `[today - 1071d, today)`) is empty, yet the locator
returns a point: it also queries a 154th window reaching 1078 days back, so
the claimed 153-week horizon is wrong (the loop bound is `3 * 51 = 153`
inclusive). -/
theorem findOldestStatistic_deep_window :
    (List.range 153).all
        (fun i => (wDeep (0 - 7 * ((i : Int) + 1)) (0 - 7 * (i : Int))).isEmpty) = true ∧
    findOldestStatistic wDeep 0 = some ⟨-1078, 1⟩ := by
  constructor
  · decide
  · decide

/-! ## Claim C1: the energy adjustment of the backfill driver -/

/-- C1: for each hole the driver processes, if at least one statistics point
was written (readings cover the hole and the formatted batch is non-empty)
then exactly one energy-series adjustment is issued, at timestamp
`hole.next`, with delta equal to the last written point's sum minus
`hole.lastSum`; if no points were written, no energy adjustment is issued.
(`fmt` is the external `formatAsStatistics`, `cc` the external
`computeCosts`; the driver's behavior holds for every choice of them.) -/
theorem processHole_energy_adjust {κ : Type} (costsCfg : Option κ)
    (cc : List StatPoint → κ → Rat → List StatPoint)
    (fmt : List Reading → Rat → List StatPoint)
    (readings : List Reading) (hole : Hole) :
    (processHole costsCfg cc fmt readings hole).filter isEnergyAdjust =
      if (holeReadings readings hole).isEmpty then []
      else if (fmt (holeReadings readings hole) hole.lastSum).isEmpty then []
      else [Effect.adjust false hole.next
        (listLastSum (fmt (holeReadings readings hole) hole.lastSum) - hole.lastSum)] := by
  simp only [processHole]
  by_cases h1 : (holeReadings readings hole).isEmpty
  · simp [h1]
  · by_cases h2 : (fmt (holeReadings readings hole) hole.lastSum).isEmpty
    · rcases costsCfg with _ | cfg <;> rcases hlc : hole.lastCost with _ | lc <;>
        simp [h1, h2, hlc, isEnergyAdjust, List.filter_append]
      all_goals
        intro a
        intros
        rename_i ha
        rcases ha with rfl | rfl <;> rfl
    · rcases costsCfg with _ | cfg <;> rcases hlc : hole.lastCost with _ | lc <;>
        simp [h1, h2, hlc, isEnergyAdjust, List.filter_append]
      all_goals
        intro a
        intros
        rename_i ha
        rcases ha with rfl | rfl <;> rfl

/-! ## Claim C6: holes with no reading coverage are no-ops -/

/-- C6: a hole whose day range `[from, to)` contains no externally supplied
reading produces no store mutation at all (no import, no adjustment), and
processing continues with the remaining holes unaffected. -/
theorem processHole_skip_empty {κ : Type} (costsCfg : Option κ)
    (cc : List StatPoint → κ → Rat → List StatPoint)
    (fmt : List Reading → Rat → List StatPoint)
    (readings : List Reading) (hole : Hole) (holes : List Hole)
    (hnone : holeReadings readings hole = []) :
    processHole costsCfg cc fmt readings hole = [] ∧
    runFill costsCfg cc fmt readings (hole :: holes) =
      runFill costsCfg cc fmt readings holes := by
  have h1 : processHole costsCfg cc fmt readings hole = [] := by
    simp only [processHole, hnone]
    rfl
  exact ⟨h1, by simp [runFill, h1]⟩

theorem processHole_skip_empty_witness :
    processHole (none : Option Unit) (fun s _ _ => s) (fun _ _ => [])
      [⟨5, 1⟩] ⟨0, 1, 0, none, 5⟩ = [] ∧
    runFill (none : Option Unit) (fun s _ _ => s) (fun _ _ => [])
        [⟨5, 1⟩] [⟨0, 1, 0, none, 5⟩] =
      runFill (none : Option Unit) (fun s _ _ => s) (fun _ _ => []) [⟨5, 1⟩] [] :=
  processHole_skip_empty none (fun s _ _ => s) (fun _ _ => [])
    [⟨5, 1⟩] ⟨0, 1, 0, none, 5⟩ [] (by decide)

/-! ## Claim C7: cost-series gating and independence -/

/-- C7 (amended): the cost branch runs only when cost configuration is
present and `hole.lastCost` is JS-truthy — non-null AND non-zero (a recorded
cost baseline of `0` also skips all cost writes); when it runs on a hole with
reading coverage and the computed cost batch is non-empty, the driver issues
exactly the cost import and one cost adjustment at `hole.next` with delta
equal to the last cost sum minus `hole.lastCost`; and the energy-series
mutations never depend on the cost configuration, the cost transform, or
`hole.lastCost`. -/
theorem processHole_cost_gating {κ₁ κ₂ : Type} (costsCfg : Option κ₁)
    (cc : List StatPoint → κ₁ → Rat → List StatPoint)
    (costsCfg₂ : Option κ₂) (cc₂ : List StatPoint → κ₂ → Rat → List StatPoint)
    (fmt : List Reading → Rat → List StatPoint)
    (readings : List Reading) (hole : Hole) (x : Option Rat) :
    ((processHole costsCfg cc fmt readings hole).filter isCostEffect =
      match costsCfg, hole.lastCost with
      | some cfg, some lc =>
        if (holeReadings readings hole).isEmpty then []
        else if lc = 0 then []
        else
          let cs := cc (fmt (holeReadings readings hole) hole.lastSum) cfg lc
          if cs.isEmpty then []
          else [Effect.save true cs, Effect.adjust true hole.next (listLastSum cs - lc)]
      | _, _ => []) ∧
    (processHole costsCfg cc fmt readings hole).filter isEnergyEffect =
      (processHole costsCfg₂ cc₂ fmt readings { hole with lastCost := x }).filter
        isEnergyEffect := by
  constructor
  · simp only [processHole]
    by_cases h1 : (holeReadings readings hole).isEmpty
    · rcases costsCfg with _ | cfg <;> rcases hlc : hole.lastCost with _ | lc <;>
        simp [h1, hlc]
    · rcases costsCfg with _ | cfg <;> rcases hlc : hole.lastCost with _ | lc <;>
        by_cases h2 : (fmt (holeReadings readings hole) hole.lastSum).isEmpty <;>
        simp [h1, h2, hlc, isCostEffect, List.filter_append]
      all_goals
        intro a
        intros
        rename_i ha
        rcases ha with rfl | rfl <;> rfl
  · have hr : holeReadings readings { hole with lastCost := x } =
        holeReadings readings hole := rfl
    simp only [processHole, hr]
    by_cases h1 : (holeReadings readings hole).isEmpty
    · simp [h1]
    · by_cases h2 : (fmt (holeReadings readings hole) hole.lastSum).isEmpty <;>
        rcases costsCfg with _ | cfg <;> rcases hlc : hole.lastCost with _ | lc <;>
        rcases costsCfg₂ with _ | cfg₂ <;> rcases hx : x with _ | xv <;>
        simp [h1, h2, hlc, hx, isEnergyEffect, List.filter_append]
      all_goals
        first
        | (intro a; intros; rename_i ha; rcases ha with rfl | rfl <;> rfl)
        | (split_ifs <;> simp [isEnergyEffect])

/-- C7 counterexample: cost configuration present, `hole.lastCost` non-null
(it is `some 0`), readings cover the hole and the cost transform returns a
non-empty batch, yet the driver issues no cost mutation at all — the JS
truthiness test `config.costs && hole.lastCost` treats a zero cost baseline
like null, refuting "if cost configuration is available and hole.lastCost is
non-null the driver writes the derived cost series". -/
theorem processHole_cost_skip_zero :
    (processHole (some ()) (fun _ _ _ => [⟨0, 1⟩]) (fun _ base => [⟨0, base⟩])
        [⟨0, 1⟩] ⟨0, 1, 0, some 0, 5⟩).filter isCostEffect = [] ∧
    (⟨0, 1, 0, some 0, 5⟩ : Hole).lastCost ≠ none ∧
    (some () : Option Unit) ≠ none := by
  decide
